import Mathlib

/-!
Verification of the `ark-rust` file index (`fs-index`) and resource-id
(`data-resource`) crates against their natural-language specification.

The Rust code is shallowly embedded:
* `HashMap`/`HashSet` become association lists / lists with explicit
  `DecidableEq` keys (iteration order of a Rust `HashMap` is arbitrary, so
  the list order carries no information the code could rely on);
* `PathBuf` becomes an inductive distinguishing absolute paths (paths whose
  components start at the filesystem root, as produced by
  `fs::canonicalize` and the directory walker) from relative paths (as
  produced by `strip_prefix`); two `PathBuf`s compare equal in Rust iff
  they have the same components, so an absolute path never equals a
  relative one;
* `SystemTime` becomes `Nat` (nanoseconds); `SystemTime::duration_since`
  fails exactly when the argument is later than the receiver;
* panics (`unwrap`, `expect`, indexing, `unreachable!`) are modelled by
  `Option`, `none` meaning the operation panicked;
* filesystem reads are passed in explicitly: the scan result that
  `discover_paths` + `scan_entries` would produce, and a metadata oracle
  for the per-file `metadata().modified()` re-read in `update_all`.
-/
set_option autoImplicit false

universe u v

/-! ## Association-list maps (model of `std::collections::HashMap`) -/
variable {κ : Type u} {ν : Type v}

variable {Id : Type u}

/-! ## Definitions -/

/-- Lookup in an association list (model of `HashMap::get`). -/
def lookupA [DecidableEq κ] : List (κ × ν) → κ → Option ν
  | [], _ => none
  | (k, v) :: rest, k' => if k' = k then some v else lookupA rest k'

/-- Remove a key from an association list (model of `HashMap::remove`). -/
def eraseA [DecidableEq κ] (l : List (κ × ν)) (k : κ) : List (κ × ν) :=
  l.filter (fun kv => kv.1 ≠ k)

/-- Insert/replace a binding (model of `HashMap::insert`). -/
def insertA [DecidableEq κ] (l : List (κ × ν)) (k : κ) (v : ν) : List (κ × ν) :=
  (k, v) :: eraseA l k

/-- Key membership (model of `HashMap::contains_key`). -/
def containsKey [DecidableEq κ] (l : List (κ × ν)) (k : κ) : Bool :=
  (lookupA l k).isSome

/-- Insert into a list treated as a set (model of `HashSet::insert`). -/
def setInsert {α : Type u} [DecidableEq α] (s : List α) (a : α) : List α :=
  if a ∈ s then s else a :: s

/-- The keys of an association list. -/
def keysOf (l : List (κ × ν)) : List κ :=
  l.map Prod.fst

/-- The association list has no duplicate keys (every `HashMap` snapshot
satisfies this). -/
abbrev NodupKeys (l : List (κ × ν)) : Prop :=
  (keysOf l).Nodup

/-! ## Paths (model of `std::path::PathBuf`)

A canonicalized root and every path yielded by the directory walker are
absolute; the keys of `path_to_resource` are relative (produced by
`strip_prefix`). Rust compares `PathBuf`s componentwise, and an absolute
path (whose components begin with `RootDir`) never equals a relative one. -/
inductive PathBuf where
  /-- A path whose components begin at the filesystem root. -/
  | absolute (comps : List String)
  /-- A path relative to some other directory. -/
  | relative (comps : List String)
deriving DecidableEq, Repr

/-- Model of `Path::strip_prefix(root)` where `root` is the (absolute)
canonicalized index root given by its component list: succeeds exactly on
absolute paths extending `root`, returning the relative remainder. -/
def stripRoot (root : List String) : PathBuf → Option PathBuf
  | .absolute comps =>
      if root.isPrefixOf comps then some (.relative (comps.drop root.length))
      else none
  | .relative _ => none

/-- Model of `Path::starts_with`: componentwise prefix test, which in Rust
also distinguishes absolute from relative paths. -/
def startsWithPath : PathBuf → PathBuf → Bool
  | .absolute c, .absolute p => p.isPrefixOf c
  | .relative c, .relative p => p.isPrefixOf c
  | _, _ => false

/-! ## The index data model (`fs-index/src/index.rs`)

`SystemTime` is modelled as `Nat` nanoseconds. `RESOURCE_UPDATED_THRESHOLD`
is `Duration::from_millis(1)`, i.e. 1000000 ns. -/
/-- The threshold for considering a resource updated, in nanoseconds
(`RESOURCE_UPDATED_THRESHOLD = Duration::from_millis(1)`). -/
def RESOURCE_UPDATED_THRESHOLD : Nat := 1000000

/-- The value type of `path_to_resource` (`IndexEntry<Id>` in the source). -/
structure IndexEntry (Id : Type u) where
  id : Id
  last_modified : Nat
deriving DecidableEq, Repr

/-- A resource as returned by the public API (`IndexedResource<Id>`):
id, path relative to the root, and last-modified time. -/
structure IndexedResource (Id : Type u) where
  id : Id
  path : PathBuf
  last_modified : Nat
deriving DecidableEq, Repr

/-- What the scanner (`scan_entries`) records per discovered file: its id
and its last-modified time. The map key is the file's absolute path. -/
structure ScanEntry (Id : Type u) where
  id : Id
  last_modified : Nat
deriving DecidableEq, Repr

/-- The index (`ResourceIndex<Id>`): canonicalized root, the map from ids
to the set of relative paths carrying that id, and the authoritative map
from relative paths to entries. -/
structure ResourceIndex (Id : Type u) where
  root : List String
  id_to_paths : List (Id × List PathBuf)
  path_to_resource : List (PathBuf × IndexEntry Id)
deriving DecidableEq, Repr

/-- The result of `update_all` (`IndexUpdate<Id>`): resources added during
the update keyed by id, and ids removed during the update. -/
structure IndexUpdate (Id : Type u) where
  added : List (Id × IndexedResource Id)
  removed : List Id
deriving DecidableEq, Repr

/-- Model of `ResourceIndex::len`. -/
def ResourceIndex.len (self : ResourceIndex Id) : Nat :=
  self.path_to_resource.length

/-- Model of `ResourceIndex::resources`: enumerate all resources, one per entry of
`path_to_resource`. -/
def ResourceIndex.resources (self : ResourceIndex Id) : List (IndexedResource Id) :=
  self.path_to_resource.map (fun pe => ⟨pe.2.id, pe.1, pe.2.last_modified⟩)

/-- Model of `ResourceIndex::collisions`: the entries of `id_to_paths` whose path
set has more than one element. -/
def ResourceIndex.collisions (self : ResourceIndex Id) : List (Id × List PathBuf) :=
  self.id_to_paths.filter (fun kp => kp.2.length > 1)

/-- Model of `ResourceIndex::num_collisions`: the total number of paths that occur
in a colliding path set (sum of the sizes of the sets of size > 1). -/
def ResourceIndex.num_collisions (self : ResourceIndex Id) : Nat :=
  (((self.id_to_paths.map Prod.snd).filter (fun ps => ps.length > 1)).map
    List.length).sum

/-- Model of `ResourceIndex::get_resource_by_path` (relative path lookup). -/
def ResourceIndex.get_resource_by_path
    (self : ResourceIndex Id) (path : PathBuf) : Option (IndexedResource Id) :=
  (lookupA self.path_to_resource path).map
    (fun e => ⟨e.id, path, e.last_modified⟩)

/-! ## Building the index (`ResourceIndex::build`, index.rs 271-314)

`discover_paths` and `scan_entries` perform the filesystem walk; their
combined output — a `HashMap` from each discovered file's absolute path to
its id and mtime — is passed in as `scan`. `strip_prefix(..).unwrap()` is
a potential panic, so `build` returns an `Option`. -/
/-- Model of `id_to_paths.entry(k).or_default().insert(p)`. -/
def setInsertAt [DecidableEq κ] {α : Type v} [DecidableEq α]
    (m : List (κ × List α)) (k : κ) (a : α) : List (κ × List α) :=
  insertA m k (setInsert ((lookupA m k).getD []) a)

/-- Model of `Iterator::collect::<HashMap<_, _>>` (later bindings override
earlier ones). -/
def collectA [DecidableEq κ] (l : List (κ × ν)) : List (κ × ν) :=
  l.foldl (fun m kv => insertA m kv.1 kv.2) []

/-- The per-entry `.map` of `build`: strip the canonicalized root prefix
from each scanned path (`strip_prefix(&root).unwrap()`, a potential
panic) and turn the scanned resource into an `IndexEntry`. -/
def stripScan (root : List String) :
    List (PathBuf × ScanEntry Id) → Option (List (PathBuf × IndexEntry Id))
  | [] => some []
  | pe :: rest =>
    match stripRoot root pe.1 with
    | none => none
    | some rel =>
      (stripScan root rest).map
        (fun es => (rel, ⟨pe.2.id, pe.2.last_modified⟩) :: es)

/-- Model of `ResourceIndex::build`: strip the root prefix from every scanned path,
record each id-to-relative-path association, and collect the stripped
entries into `path_to_resource`. -/
def ResourceIndex.build [DecidableEq Id] (root : List String)
    (scan : List (PathBuf × ScanEntry Id)) : Option (ResourceIndex Id) := do
  let entries ← stripScan root scan
  let idm := entries.foldl (fun m re => setInsertAt m re.2.id re.1) []
  let ptm := collectA entries
  some ⟨root, idm, ptm⟩

/-! ## The diff algorithm (`ResourceIndex::update_all`, index.rs 317-492)

The freshly scanned snapshot (`current_entries`) is keyed by the walker's
absolute paths, while `self.path_to_resource` (`previous_entries`) is
keyed by relative paths; the code intersects the two key sets as they
are. `md` is the `metadata().modified()` oracle used by the
modified-check (`none` = the read failed). -/
/-- Model of `preserved_entries`: the intersection of the current scan and the
previous entries, keeping the previously stored entry. -/
def preservedEntriesFn [DecidableEq Id]
    (previous : List (PathBuf × IndexEntry Id))
    (current : List (PathBuf × ScanEntry Id)) :
    List (PathBuf × IndexEntry Id) :=
  current.filterMap (fun pe =>
    (lookupA previous pe.1).map (fun pr => (pe.1, pr)))

/-- Model of `updated_entries`: preserved entries whose freshly read mtime advanced
by at least `RESOURCE_UPDATED_THRESHOLD`. A failed metadata or timestamp
read counts as not modified; `duration_since(..).unwrap()` panics (hence
`none`) when the fresh mtime is earlier than the stored one, and the
indexing `self.path_to_resource[path]` panics when the key is absent. -/
def updatedEntriesFn [DecidableEq Id]
    (ptr : List (PathBuf × IndexEntry Id))
    (preserved : List (PathBuf × IndexEntry Id))
    (current : List (PathBuf × ScanEntry Id))
    (md : PathBuf → Option Nat) : Option (List (PathBuf × ScanEntry Id)) :=
  match current with
  | [] => some []
  | pe :: rest =>
    if containsKey preserved pe.1 then
      match lookupA ptr pe.1 with
      | none => none
      | some ourEntry =>
        match md pe.1 with
        | none => updatedEntriesFn ptr preserved rest md
        | some currModified =>
          if currModified < ourEntry.last_modified then none
          else if RESOURCE_UPDATED_THRESHOLD ≤ currModified - ourEntry.last_modified then
            (updatedEntriesFn ptr preserved rest md).map (fun r => pe :: r)
          else updatedEntriesFn ptr preserved rest md
    else updatedEntriesFn ptr preserved rest md

/-- The removal loop of `update_all`: for each removed entry, drop it from
`path_to_resource`, drop its path from the id's path set
(`get_mut(..).unwrap()` panics if the id is unknown), and when the set
becomes empty drop the id and record it in `removed`. -/
def removeEntries [DecidableEq Id] :
    ResourceIndex Id → List Id → List (PathBuf × IndexEntry Id) →
    Option (ResourceIndex Id × List Id)
  | st, removed, [] => some (st, removed)
  | st, removed, (p, e) :: rest =>
    match lookupA st.id_to_paths e.id with
    | none => none
    | some s =>
      let s' := s.filter (fun q => q ≠ p)
      let ptm := eraseA st.path_to_resource p
      if s'.isEmpty then
        removeEntries ⟨st.root, eraseA st.id_to_paths e.id, ptm⟩
          (setInsert removed e.id) rest
      else
        removeEntries ⟨st.root, insertA st.id_to_paths e.id s', ptm⟩
          removed rest

/-- The insertion loop of `update_all`: strip the root from each added
path (`strip_prefix(..).unwrap()` panics when the path is not under the
root), insert the entry into both maps and record it in `added`. -/
def addEntries [DecidableEq Id] :
    ResourceIndex Id → List (Id × IndexedResource Id) →
    List (PathBuf × ScanEntry Id) →
    Option (ResourceIndex Id × List (Id × IndexedResource Id))
  | st, added, [] => some (st, added)
  | st, added, (p, r) :: rest =>
    match stripRoot st.root p with
    | none => none
    | some rel =>
      addEntries
        ⟨st.root, setInsertAt st.id_to_paths r.id rel,
          insertA st.path_to_resource rel ⟨r.id, r.last_modified⟩⟩
        (insertA added r.id ⟨r.id, rel, r.last_modified⟩) rest

/-- Model of `ResourceIndex::update_all`: diff the fresh scan against the stored
entries and mutate the maps, returning the added resources and removed
ids. `none` models a panic inside the algorithm. -/
def ResourceIndex.update_all [DecidableEq Id] (st : ResourceIndex Id)
    (scan : List (PathBuf × ScanEntry Id)) (md : PathBuf → Option Nat) :
    Option (IndexUpdate Id × ResourceIndex Id) := do
  let currentEntries := scan
  let previousEntries := st.path_to_resource
  let preservedEntries := preservedEntriesFn previousEntries currentEntries
  let createdEntries :=
    currentEntries.filter (fun pe => !(containsKey preservedEntries pe.1))
  let updatedEntries ←
    updatedEntriesFn st.path_to_resource preservedEntries currentEntries md
  let removedEntries :=
    previousEntries.filter (fun pe => !(containsKey preservedEntries pe.1))
  let sr ← removeEntries st [] removedEntries
  let addedEntries :=
    (updatedEntries ++ createdEntries).filter
      (fun pe => !(containsKey sr.1.path_to_resource pe.1))
  let sa ← addEntries sr.1 [] addedEntries
  some (⟨sa.2, sr.2⟩, sa.1)

/-! ## Claim C1: `update_all` on an unchanged filesystem

The fresh scan is keyed by absolute paths while `path_to_resource` is
keyed by relative paths, so `preserved_entries` is always empty: every
previous entry is removed and every scanned file re-inserted. On an
unchanged filesystem the maps end up equal to their previous state, but
the returned `IndexUpdate` reports every id as removed and every resource
as added, and every entry is a re-inserted fresh copy. -/
/-- The scan of a root `/r` holding a single unchanged file `file.txt`
(id 7, mtime 100). -/
def c1Scan : List (PathBuf × ScanEntry Nat) :=
  [(.absolute ["r", "file.txt"], ⟨7, 100⟩)]

/-- The index over `/r` as `build` creates it from `c1Scan`. -/
def c1St : ResourceIndex Nat :=
  ⟨["r"], [(7, [.relative ["file.txt"]])],
    [(.relative ["file.txt"], ⟨7, 100⟩)]⟩

/-- The scan used by the C4 witness: two files with the same id. -/
def c4Scan : List (PathBuf × ScanEntry Nat) :=
  [(.absolute ["a", "f"], ⟨1, 5⟩), (.absolute ["a", "g"], ⟨1, 6⟩)]

/-- The index `build` produces from `c4Scan`. -/
def c4St : ResourceIndex Nat :=
  ⟨["a"], [(1, [.relative ["g"], .relative ["f"]])],
    [(.relative ["g"], ⟨1, 6⟩), (.relative ["f"], ⟨1, 5⟩)]⟩

/-! ## The watch pipeline (`fs-index/src/watch.rs`) -/
/-- The `notify` event kinds distinguished by the watch loop's `match`. -/
inductive EventKind where
  | modifyData
  | modifyName
  | modifyOther
  | createFile
  | createOther
  | removeFile
  | removeOther
  | access
  | other
deriving DecidableEq, Repr

/-- The kinds the loop keeps: `Modify(Data(_)) | Modify(Name(_)) |
Create(File) | Remove(File)`; everything else hits the `_ => continue`. -/
def relevantKind : EventKind → Bool
  | .modifyData => true
  | .modifyName => true
  | .createFile => true
  | .removeFile => true
  | _ => false

/-- A `notify::Event`: kind, affected paths, and the rescan flag. -/
structure Event where
  kind : EventKind
  paths : List PathBuf
  needRescan : Bool
deriving DecidableEq, Repr

/-- The `.ark` filter of the watch loop (watch.rs 56-63):
`event.paths.iter().any(|p| p.starts_with(&ark_folder))`. -/
def skipsArkEvent (arkFolder : PathBuf) (ev : Event) : Bool :=
  ev.paths.any (fun p => startsWithPath p arkFolder)

/-- One message received from the inbound channel: either a watcher error
(`Err(e)`, logged and skipped) or an event together with the filesystem
state a rescan would observe (the scan and metadata oracle passed to
`update_all`). -/
inductive EventMsg (Id : Type u) where
  | errMsg
  | okMsg (event : Event) (scan : List (PathBuf × ScanEntry Id))
      (md : PathBuf → Option Nat)

/-- The possible ways the `watch_index` loop can end. -/
inductive WatchOutcome where
  /-- An `Ok(())` return (the signature allows it). -/
  | ok
  /-- An `Err(..)` return through one of the `?` operators. -/
  | err
  /-- A panic: the final `unreachable!`, a failed `expect`, or a panic
  inside `update_all`. -/
  | panicked
deriving DecidableEq, Repr

/-- The consumption loop of `watch_index` (watch.rs 53-121) from the
moment the watcher is installed: process each channel message in order;
when the channel yields no more messages the `while let` ends and
execution reaches `unreachable!("Watcher stream ended unexpectedly")`.
`uOne` stands for `ResourceIndex::update_one`, which is called by this
revision of the loop but is not part of the sources; the loop is proved
for every such function. `store()` is modelled as succeeding. -/
def watchLoop [DecidableEq Id] (ark : PathBuf)
    (uOne : ResourceIndex Id → PathBuf → Except Unit (ResourceIndex Id)) :
    List (EventMsg Id) → ResourceIndex Id → WatchOutcome
  | [], _ => .panicked
  | .errMsg :: rest, st => watchLoop ark uOne rest st
  | .okMsg ev scan md :: rest, st =>
    if skipsArkEvent ark ev then watchLoop ark uOne rest st
    else if !(relevantKind ev.kind) then watchLoop ark uOne rest st
    else if ev.needRescan then
      match st.update_all scan md with
      | none => .panicked
      | some (_, st') => watchLoop ark uOne rest st'
    else
      match ev.paths.head? with
      | none => .panicked
      | some file =>
        match stripRoot st.root file with
        | none => .err
        | some rel =>
          match uOne st rel with
          | .error _ => .err
          | .ok st' => watchLoop ark uOne rest st'

/-! ## Claim C7: `track_removal` failure modes -/
/-- The failure kinds of the Track API named by the specification. -/
inductive TrackError where
  | StillExists
  | NotIndexed
deriving DecidableEq, Repr

/-- Modelled from the spec: `track_removal` belongs to the Track API,
which is not present under src/ (only `fs-index/src/tests.rs` calls it).
Per the spec's operation table — precondition: `root/p` does not exist on
disk and `p` is currently indexed; failure: `StillExists` if the file is
still present, `NotIndexed` if `p` is not in the index; effect: remove
`p` from both maps, pruning an id whose path set becomes empty (I3).
`fsExists` is the on-disk existence oracle for `root/p`; the returned
pair is the `Result` and the (possibly updated) index. -/
def ResourceIndex.track_removal [DecidableEq Id] (st : ResourceIndex Id)
    (fsExists : PathBuf → Bool) (p : PathBuf) :
    Except TrackError Unit × ResourceIndex Id :=
  match lookupA st.path_to_resource p with
  | none => (.error .NotIndexed, st)
  | some e =>
    if fsExists p then (.error .StillExists, st)
    else
      let s := (lookupA st.id_to_paths e.id).getD []
      let s' := s.filter (fun q => q ≠ p)
      let idm :=
        if s'.isEmpty then eraseA st.id_to_paths e.id
        else insertA st.id_to_paths e.id s'
      (.ok (), ⟨st.root, idm, eraseA st.path_to_resource p⟩)

/-! ## Id parsing (`data-resource/src/blake3.rs`, `Hash::from_str`) -/
/-- Hexadecimal digits as accepted by `u8::from_str_radix(.., 16)`. -/
def isHexDigitC (c : Char) : Bool :=
  (decide ('0' ≤ c) && decide (c ≤ '9'))
    || (decide ('a' ≤ c) && decide (c ≤ 'f'))
    || (decide ('A' ≤ c) && decide (c ≤ 'F'))

/-- The numeric value of a hex digit. -/
def hexVal (c : Char) : Nat :=
  if '0' ≤ c ∧ c ≤ '9' then c.toNat - '0'.toNat
  else if 'a' ≤ c ∧ c ≤ 'f' then c.toNat - 'a'.toNat + 10
  else c.toNat - 'A'.toNat + 10

/-- Model of `u8::from_str_radix(&s[2*i..2*i+2], 16)` on the two
characters of the slice: Rust accepts an optional leading `+` sign
followed by a non-empty digit sequence, so the slice parses when it is
two hex digits or a `+` followed by one hex digit (a leading `-` is
rejected for the unsigned `u8`); two digits are at most 0xff, so no
overflow case arises. -/
def fromStrRadix16Pair (a b : Char) : Option Nat :=
  if isHexDigitC a ∧ isHexDigitC b then some (16 * hexVal a + hexVal b)
  else if a = '+' ∧ isHexDigitC b then some (hexVal b)
  else none

/-- The three ways `Hash::from_str` can end: a parsed byte vector, the
`ArklibError::Parse` error, or a panic (byte slicing at an index that is
not a character boundary aborts the program rather than returning). -/
inductive ParseOutcome where
  | ok (bytes : List Nat)
  | parseErr
  | panic
deriving DecidableEq, Repr

/-- Map over the success value of a parse outcome. -/
def ParseOutcome.map (f : List Nat → List Nat) : ParseOutcome → ParseOutcome
  | .ok bytes => .ok (f bytes)
  | .parseErr => .parseErr
  | .panic => .panic

/-- Model of Rust's `s.len()`: the UTF-8 byte length of the string,
computed from the characters' encoding widths. -/
def byteLen (s : List Char) : Nat :=
  (s.map Char.utf8Size).sum

/-- The loop of `Hash::from_str`: for each `i`, parse the two-byte slice
`&s[2*i..2*i+2]` with `u8::from_str_radix(.., 16)`, failing with
`ArklibError::Parse` when a slice fails to parse. The slice offsets are
byte offsets, and slicing a `str` at an offset that is not a character
boundary panics, so: a window of two one-byte characters is parsed with
`fromStrRadix16Pair`; a window that is exactly one two-byte character is
a valid slice but never a digit sequence, so it is a parse error; and a
window whose end falls inside a multi-byte character (a one-byte
character followed by a multi-byte one, or a character of three or more
bytes) panics. The string is modelled by its character list. -/
def parseHexPairs : List Char → ParseOutcome
  | [] => .ok []
  | c :: rest =>
    if c.utf8Size = 1 then
      match rest with
      | [] => .panic
      | d :: rest' =>
        if d.utf8Size = 1 then
          match fromStrRadix16Pair c d with
          | none => .parseErr
          | some v => (parseHexPairs rest').map (fun r => v :: r)
        else .panic
    else if c.utf8Size = 2 then .parseErr
    else .panic

/-- Model of `Hash::from_str`: reject an odd byte length (`s.len() % 2`)
with `ArklibError::Parse`, then parse the consecutive two-byte slices
with `u8::from_str_radix(.., 16)`. -/
def hashFromStr (s : List Char) : ParseOutcome :=
  if byteLen s % 2 ≠ 0 then .parseErr
  else parseHexPairs s

/-- The consecutive two-character chunks the parser visits on a string of
one-byte characters (where character pairs coincide with two-byte
slices). -/
def hexPairsOf : List Char → List (Char × Char)
  | a :: b :: rest => (a, b) :: hexPairsOf rest
  | _ => []

/-! ## Claim C10: `from_path` vs `from_bytes`

The repository feeds the file to the BLAKE3 hasher in newline-delimited
chunks (`read_until(b'\n')` until it returns 0), while `from_bytes` feeds
the whole byte slice at once. The hasher itself is an external
collaborator, modelled by its incremental contract: the digest is a
function `H` of the concatenation of all bytes fed to `update`. -/
/-- The chunks `read_until(b'\n', ..)` produces from the file's bytes:
each chunk runs up to and including a newline (byte 10), the final chunk
holds the trailing bytes; `read_until` returning 0 ends the loop, so an
empty file produces no chunks. -/
def chunksNl : List Nat → List (List Nat)
  | [] => []
  | b :: bs =>
    if b = 10 then [b] :: chunksNl bs
    else
      match chunksNl bs with
      | [] => [[b]]
      | c :: cs => (b :: c) :: cs

namespace Blake3

/-- Model of `ResourceId::from_path` for the BLAKE3 hasher: `update` each newline
chunk in order, then `finalize` — i.e. `H` of the bytes fed left to
right. `H` is the abstract digest function, `fileBytes` the file's
contents. -/
def from_path {Hv : Type u} (H : List Nat → Hv) (fileBytes : List Nat) : Hv :=
  H ((chunksNl fileBytes).foldl (fun acc chunk => acc ++ chunk) [])

/-- Model of `ResourceId::from_bytes`: `update` the whole byte slice once, then
`finalize`. -/
def from_bytes {Hv : Type u} (H : List Nat → Hv) (bytes : List Nat) : Hv :=
  H bytes

end Blake3

/-! ## The Scanner (claim C8)

`discover_paths`/`scan_entries` are not present under src/; the walk is
modelled from the spec (§4.2), using `should_index` from
`fs-index/src/utils.rs` for the hidden-entry rule. A filesystem is a tree
of named files (with byte contents and mtime) and directories. -/
/-- Model of `should_index` (fs-index/src/utils.rs): an entry is indexed only when
its file name does not start with `'.'`
(`!entry.file_name().to_string_lossy().starts_with('.')`). -/
def should_index (fileName : String) : Bool :=
  match fileName.data with
  | '.' :: _ => false
  | _ => true

/-- A filesystem subtree: a regular file with contents and mtime, or a
directory with children. -/
inductive FsTree where
  | file (name : String) (content : List Nat) (mtime : Nat)
  | dir (name : String) (children : List FsTree)

/-- The name of a tree entry. -/
def FsTree.name : FsTree → String
  | .file n _ _ => n
  | .dir n _ => n

mutual
/-- Modelled from the spec: what the Scanner emits for one directory
entry. A hidden entry (per `should_index`) is skipped and its subtree
pruned; a directory is itself never emitted but its children are
traversed; a zero-byte file is skipped; a surviving file is emitted as
(path below the walk start, mtime, id from the Hasher `hashFn`). -/
def discoverEntry {Id : Type u} (hashFn : List Nat → Id) :
    FsTree → List (List String × Nat × Id)
  | .file n content mt =>
    if should_index n ∧ content.length ≠ 0 then [([n], mt, hashFn content)]
    else []
  | .dir n children =>
    if should_index n then
      (discoverChildren hashFn children).map (fun e => (n :: e.1, e.2))
    else []

/-- Modelled from the spec: the Scanner's traversal of a directory's
children, in order. -/
def discoverChildren {Id : Type u} (hashFn : List Nat → Id) :
    List FsTree → List (List String × Nat × Id)
  | [] => []
  | t :: ts => discoverEntry hashFn t ++ discoverChildren hashFn ts
end

/-- Modelled from the spec: the full scan of the root. The root itself is
never yielded (rule 1), so only its children are walked. -/
def discoverTree {Id : Type u} (hashFn : List Nat → Id) :
    FsTree → List (List String × Nat × Id)
  | .file _ _ _ => []
  | .dir _ children => discoverChildren hashFn children

/-- The scan result (`discover_paths` + `scan_entries`) over a file tree:
absolute paths under `root` mapped to id and mtime. -/
def scanOfTree {Id : Type u} (hashFn : List Nat → Id) (root : List String)
    (tree : FsTree) : List (PathBuf × ScanEntry Id) :=
  (discoverTree hashFn tree).map
    (fun e => (.absolute (root ++ e.1), ⟨e.2.2, e.2.1⟩))

mutual
/-- Navigate a tree entry along a path: the entry itself for `[]` on a
file, a descendant through a directory's children otherwise. -/
def findInTree : FsTree → List String → Option (List Nat × Nat)
  | .file _ content mt, [] => some (content, mt)
  | .file _ _ _, _ :: _ => none
  | .dir _ _, [] => none
  | .dir _ children, c :: rest => findInChildren children c rest

/-- Navigate into the child with the given name. -/
def findInChildren : List FsTree → String → List String → Option (List Nat × Nat)
  | [], _, _ => none
  | t :: ts, c, rest =>
    if FsTree.name t = c then findInTree t rest else findInChildren ts c rest
end

/-- Navigate from the root: the file (contents, mtime) at a relative
component path, when it exists. -/
def findRel : FsTree → List String → Option (List Nat × Nat)
  | .dir _ children, c :: rest => findInChildren children c rest
  | _, _ => none

mutual
/-- A well-formed filesystem: sibling names are distinct. -/
def wfTree : FsTree → Bool
  | .file _ _ _ => true
  | .dir _ children =>
    decide ((children.map FsTree.name).Nodup) && wfChildren children

/-- All trees in the list are well-formed. -/
def wfChildren : List FsTree → Bool
  | [] => true
  | t :: ts => wfTree t && wfChildren ts
end

/-- The tree and index used by the C8 witness. -/
def c8Tree : FsTree :=
  .dir "rt" [.file "f.txt" [5] 3]

/-- The index `build` produces over `c8Tree` with the length hasher. -/
def c8St : ResourceIndex Nat :=
  ⟨["a"], [(1, [.relative ["f.txt"]])], [(.relative ["f.txt"], ⟨1, 3⟩)]⟩

/-! ## Theorems -/

section ALemmas

variable [DecidableEq κ]

theorem lookupA_eq_none {l : List (κ × ν)} {k : κ} :
    lookupA l k = none ↔ k ∉ keysOf l := by
  induction l with
  | nil => simp [lookupA, keysOf]
  | cons hd tl ih =>
    obtain ⟨k', v⟩ := hd
    by_cases h : k = k' <;> simp [lookupA, keysOf, h, ih] at * <;> tauto

theorem lookupA_mem {l : List (κ × ν)} {k : κ} {v : ν}
    (h : lookupA l k = some v) : (k, v) ∈ l := by
  induction l with
  | nil => simp [lookupA] at h
  | cons hd tl ih =>
    obtain ⟨k', v'⟩ := hd
    by_cases hk : k = k'
    · subst hk
      simp [lookupA] at h
      subst h
      exact List.mem_cons_self _ _
    · simp [lookupA, hk] at h
      exact List.mem_cons_of_mem _ (ih h)

theorem mem_lookupA {l : List (κ × ν)} {k : κ} {v : ν}
    (hnd : NodupKeys l) (h : (k, v) ∈ l) : lookupA l k = some v := by
  induction l with
  | nil => simp at h
  | cons hd tl ih =>
    obtain ⟨k', v'⟩ := hd
    simp only [NodupKeys, keysOf, List.map_cons, List.nodup_cons] at hnd
    rcases List.mem_cons.mp h with heq | hmem
    · rw [Prod.mk.injEq] at heq
      obtain ⟨h1, h2⟩ := heq
      subst h1; subst h2
      simp [lookupA]
    · have hne : k ≠ k' := by
        intro hkk
        subst hkk
        exact hnd.1 (List.mem_map.mpr ⟨(k, v), hmem, rfl⟩)
      simp [lookupA, hne]
      exact ih hnd.2 hmem

theorem lookupA_eraseA {l : List (κ × ν)} {k k' : κ} :
    lookupA (eraseA l k) k' = if k' = k then none else lookupA l k' := by
  induction l with
  | nil => simp [eraseA, lookupA]
  | cons hd tl ih =>
    obtain ⟨k₀, v₀⟩ := hd
    by_cases h0 : k₀ = k
    · subst h0
      by_cases h1 : k' = k₀ <;>
        simp [eraseA, lookupA, h1] at * <;> simpa [h1] using ih
    · by_cases h1 : k' = k₀ <;>
        simp [eraseA, lookupA, h0, h1] at * <;> simpa [h1] using ih

theorem lookupA_insertA {l : List (κ × ν)} {k k' : κ} {v : ν} :
    lookupA (insertA l k v) k' = if k' = k then some v else lookupA l k' := by
  by_cases h : k' = k <;> simp [insertA, lookupA, h, lookupA_eraseA]

theorem nodupKeys_eraseA {l : List (κ × ν)} {k : κ} (h : NodupKeys l) :
    NodupKeys (eraseA l k) :=
  List.Nodup.sublist ((List.filter_sublist l).map Prod.fst) h

theorem nodupKeys_insertA {l : List (κ × ν)} {k : κ} {v : ν}
    (h : NodupKeys l) : NodupKeys (insertA l k v) := by
  have he := nodupKeys_eraseA (k := k) h
  simp only [insertA, NodupKeys, keysOf, List.map_cons, List.nodup_cons]
  refine ⟨?_, he⟩
  intro hmem
  obtain ⟨⟨ka, va⟩, hin, hkeq⟩ := List.mem_map.mp hmem
  have : ka ≠ k := by
    have := List.of_mem_filter (p := fun (kv : κ × ν) => decide ¬(kv.1 = k)) hin
    simpa using this
  exact this hkeq

end ALemmas

theorem stripRoot_append {root rest : List String} :
    stripRoot root (.absolute (root ++ rest)) = some (.relative rest) := by
  simp [stripRoot, List.isPrefixOf_iff_prefix]

/-! ## Claim C5: `collisions` and `num_collisions` -/
theorem map_snd_filter_len {Id : Type u} (l : List (Id × List PathBuf)) :
    (l.filter (fun kp => kp.2.length > 1)).map Prod.snd
      = (l.map Prod.snd).filter (fun ps => ps.length > 1) := by
  induction l with
  | nil => rfl
  | cons hd tl ih =>
    by_cases h : hd.2.length > 1 <;>
      simp [List.filter_cons, h, ih]

/-- C5: `collisions()` returns exactly the entries of `id_to_paths` whose
path set has size strictly greater than 1, and `num_collisions()` equals
the sum of the sizes of those sets. -/
theorem c5_collisions_and_num_collisions {Id : Type u} (st : ResourceIndex Id) :
    (∀ (k : Id) (ps : List PathBuf),
        (k, ps) ∈ st.collisions ↔ ((k, ps) ∈ st.id_to_paths ∧ ps.length > 1)) ∧
    st.num_collisions = (st.collisions.map (fun kp => kp.2.length)).sum := by
  constructor
  · intro k ps
    simp [ResourceIndex.collisions, List.mem_filter]
  · show st.num_collisions
        = ((st.id_to_paths.filter (fun kp => kp.2.length > 1)).map
            (fun kp => kp.2.length)).sum
    have : (st.id_to_paths.filter (fun kp => kp.2.length > 1)).map
        (fun kp => kp.2.length)
        = ((st.id_to_paths.filter (fun kp => kp.2.length > 1)).map
            Prod.snd).map List.length := by
      simp [List.map_map]
    rw [this, map_snd_filter_len]
    rfl

/-- C1: evaluated at an index over an unchanged filesystem (one file,
`file.txt`, id 7, mtime 100, on-disk metadata still reporting 100),
`update_all` succeeds and leaves both maps equal to their previous state,
but — contrary to the claim — returns an `IndexUpdate` whose `removed`
contains the file's id and whose `added` contains a freshly re-inserted
copy of the entry: the added and removed sets are not empty. -/
theorem c1_update_all_unchanged_filesystem_eval :
    ResourceIndex.build ["r"] c1Scan = some c1St ∧
    c1St.update_all c1Scan (fun _ => some 100) =
      some (⟨[(7, ⟨7, .relative ["file.txt"], 100⟩)], [7]⟩, c1St) ∧
    ([(7, (⟨7, .relative ["file.txt"], 100⟩ : IndexedResource Nat))] ≠ []) ∧
    (([7] : List Nat) ≠ []) := by
  refine ⟨by decide, by decide, by decide, by decide⟩

/-! ## Lemmas about `build`'s two folds (towards claim C4) -/
section BuildLemmas

variable [DecidableEq κ]

theorem lookupA_append {l₁ l₂ : List (κ × ν)} {k : κ} :
    lookupA (l₁ ++ l₂) k = (lookupA l₁ k).orElse (fun _ => lookupA l₂ k) := by
  induction l₁ with
  | nil => simp [lookupA]
  | cons hd tl ih =>
    obtain ⟨k₀, v₀⟩ := hd
    by_cases h : k = k₀ <;> simp [lookupA, h, ih, Option.orElse]

theorem foldl_insertA_lookup (entries : List (κ × ν)) :
    ∀ (m : List (κ × ν)) (k : κ),
      lookupA (entries.foldl (fun acc kv => insertA acc kv.1 kv.2) m) k
        = (lookupA entries.reverse k).orElse (fun _ => lookupA m k) := by
  induction entries with
  | nil => intro m k; simp [lookupA, Option.orElse]
  | cons hd tl ih =>
    intro m k
    obtain ⟨k₀, v₀⟩ := hd
    simp only [List.foldl_cons, List.reverse_cons]
    rw [ih, lookupA_append]
    by_cases h : k = k₀ <;>
      cases hlk : lookupA tl.reverse k <;>
        simp [lookupA_insertA, lookupA_eraseA, lookupA, h, hlk, Option.orElse]

theorem lookupA_collectA {entries : List (κ × ν)} (hnd : NodupKeys entries)
    {k : κ} {v : ν} :
    lookupA (collectA entries) k = some v ↔ (k, v) ∈ entries := by
  have hrev : NodupKeys entries.reverse := by
    simpa [NodupKeys, keysOf, List.map_reverse] using
      (List.nodup_reverse.mpr hnd)
  unfold collectA
  rw [foldl_insertA_lookup]
  cases hlk : lookupA entries.reverse k with
  | none =>
    simp only [Option.orElse, lookupA]
    constructor
    · intro h; cases h
    · intro hmem
      have := mem_lookupA hrev (List.mem_reverse.mpr hmem)
      rw [hlk] at this; cases this
  | some v' =>
    simp only [Option.orElse]
    constructor
    · intro h
      cases h
      exact List.mem_reverse.mp (lookupA_mem hlk)
    · intro hmem
      have := mem_lookupA hrev (List.mem_reverse.mpr hmem)
      rw [hlk] at this
      exact this

end BuildLemmas

theorem mem_setInsert {α : Type u} [DecidableEq α] {s : List α} {a p : α} :
    p ∈ setInsert s a ↔ (p ∈ s ∨ p = a) := by
  unfold setInsert
  by_cases h : a ∈ s
  · simp only [if_pos h]
    constructor
    · exact Or.inl
    · rintro (hp | rfl) <;> assumption
  · simp [if_neg h, List.mem_cons, or_comm]

theorem mem_setAt_setInsertAt [DecidableEq Id] {m : List (Id × List PathBuf)}
    {k k' : Id} {p p' : PathBuf} :
    p ∈ (lookupA (setInsertAt m k' p') k).getD []
      ↔ (p ∈ (lookupA m k).getD [] ∨ (k = k' ∧ p = p')) := by
  unfold setInsertAt
  rw [lookupA_insertA]
  by_cases h : k = k'
  · subst h
    simp [mem_setInsert]
  · simp [h]

theorem mem_foldl_setInsertAt [DecidableEq Id]
    (entries : List (PathBuf × IndexEntry Id)) :
    ∀ (m : List (Id × List PathBuf)) (k : Id) (p : PathBuf),
      p ∈ (lookupA (entries.foldl (fun m re => setInsertAt m re.2.id re.1) m) k).getD []
        ↔ (p ∈ (lookupA m k).getD []
            ∨ ∃ e, (p, e) ∈ entries ∧ e.id = k) := by
  induction entries with
  | nil => intro m k p; simp
  | cons hd tl ih =>
    intro m k p
    obtain ⟨p₀, e₀⟩ := hd
    simp only [List.foldl_cons]
    rw [ih]
    rw [mem_setAt_setInsertAt]
    constructor
    · rintro ((hm | ⟨hk, hp⟩) | ⟨e, hmem, hid⟩)
      · exact Or.inl hm
      · exact Or.inr ⟨e₀, by simp [hp], hk.symm⟩
      · exact Or.inr ⟨e, List.mem_cons_of_mem _ hmem, hid⟩
    · rintro (hm | ⟨e, hmem, hid⟩)
      · exact Or.inl (Or.inl hm)
      · rcases List.mem_cons.mp hmem with heq | hmem'
        · rw [Prod.mk.injEq] at heq
          exact Or.inl (Or.inr ⟨by rw [← hid, heq.2], heq.1⟩)
        · exact Or.inr ⟨e, hmem', hid⟩

theorem stripRoot_inj {root : List String} {a b r : PathBuf}
    (ha : stripRoot root a = some r) (hb : stripRoot root b = some r) :
    a = b := by
  cases a with
  | relative ca => simp [stripRoot] at ha
  | absolute ca =>
    cases b with
    | relative cb => simp [stripRoot] at hb
    | absolute cb =>
      simp only [stripRoot] at ha hb
      by_cases hpa : root.isPrefixOf ca = true
      · by_cases hpb : root.isPrefixOf cb = true
        · rw [if_pos hpa] at ha
          rw [if_pos hpb] at hb
          have hdrop : ca.drop root.length = cb.drop root.length := by
            have := ha.trans hb.symm
            simpa using this
          have hca : root ++ ca.drop root.length = ca :=
            List.prefix_iff_eq_append.mp ( List.isPrefixOf_iff_prefix.mp hpa)
          have hcb : root ++ cb.drop root.length = cb :=
            List.prefix_iff_eq_append.mp ( List.isPrefixOf_iff_prefix.mp hpb)
          rw [← hca, ← hcb, hdrop]
        · rw [if_neg hpb] at hb; cases hb
      · rw [if_neg hpa] at ha; cases ha

theorem stripScan_mem {root : List String}
    {scan : List (PathBuf × ScanEntry Id)}
    {entries : List (PathBuf × IndexEntry Id)}
    (h : stripScan root scan = some entries) {p : PathBuf} {e : IndexEntry Id} :
    (p, e) ∈ entries
      ↔ ∃ ap se, (ap, se) ∈ scan ∧ stripRoot root ap = some p
          ∧ e = ⟨se.id, se.last_modified⟩ := by
  induction scan generalizing entries with
  | nil =>
    simp only [stripScan, Option.some.injEq] at h
    subst h
    simp
  | cons hd tl ih =>
    obtain ⟨ap₀, se₀⟩ := hd
    simp only [stripScan] at h
    cases hs : stripRoot root ap₀ with
    | none => rw [hs] at h; cases h
    | some rel =>
      rw [hs] at h
      cases hrest : stripScan root tl with
      | none => rw [hrest] at h; cases h
      | some es =>
        rw [hrest] at h
        have hent : entries = (rel, ⟨se₀.id, se₀.last_modified⟩) :: es := by
          simpa using h.symm
        subst hent
        constructor
        · intro hmem
          rcases List.mem_cons.mp hmem with heq | hmem'
          · rw [Prod.mk.injEq] at heq
            exact ⟨ap₀, se₀, List.mem_cons_self _ _, heq.1 ▸ hs, heq.2⟩
          · obtain ⟨ap, se, hin, hstrip, heq⟩ := (ih hrest).mp hmem'
            exact ⟨ap, se, List.mem_cons_of_mem _ hin, hstrip, heq⟩
        · rintro ⟨ap, se, hin, hstrip, heq⟩
          rcases List.mem_cons.mp hin with heq' | hin'
          · rw [Prod.mk.injEq] at heq'
            obtain ⟨h1, h2⟩ := heq'
            subst h1; subst h2
            rw [hs] at hstrip
            cases hstrip
            subst heq
            exact List.mem_cons_self _ _
          · exact List.mem_cons_of_mem _
              ((ih hrest).mpr ⟨ap, se, hin', hstrip, heq⟩)

theorem stripScan_nodupKeys {root : List String}
    {scan : List (PathBuf × ScanEntry Id)}
    {entries : List (PathBuf × IndexEntry Id)}
    (hnd : NodupKeys scan) (h : stripScan root scan = some entries) :
    NodupKeys entries := by
  induction scan generalizing entries with
  | nil =>
    simp only [stripScan, Option.some.injEq] at h
    subst h
    simp [NodupKeys, keysOf]
  | cons hd tl ih =>
    obtain ⟨ap₀, se₀⟩ := hd
    simp only [stripScan] at h
    cases hs : stripRoot root ap₀ with
    | none => rw [hs] at h; cases h
    | some rel =>
      rw [hs] at h
      cases hrest : stripScan root tl with
      | none => rw [hrest] at h; cases h
      | some es =>
        rw [hrest] at h
        have hent : entries = (rel, ⟨se₀.id, se₀.last_modified⟩) :: es := by
          simpa using h.symm
        subst hent
        simp only [NodupKeys, keysOf, List.map_cons, List.nodup_cons] at hnd ⊢
        constructor
        · intro hmem
          obtain ⟨⟨p', e'⟩, hin, hkeq⟩ := List.mem_map.mp hmem
          have hpe : p' = rel := hkeq
          subst hpe
          obtain ⟨ap, se, hints, hstrip, _⟩ := (stripScan_mem hrest).mp hin
          have : ap = ap₀ := stripRoot_inj hstrip hs
          subst this
          exact hnd.1 (List.mem_map.mpr ⟨(ap, se), hints, rfl⟩)
        · exact ih hnd.2 hrest

/-! ## Claim C4: invariants of a freshly built index -/
/-- C4: after `build` succeeds, the number of resources equals the size of
`path_to_resource`; every path bound in `path_to_resource` occurs in the
path set of its entry's id in `id_to_paths`; and every path in a set of
`id_to_paths` is bound in `path_to_resource` to an entry carrying that id. -/
theorem c4_build_invariants [DecidableEq Id] (root : List String)
    (scan : List (PathBuf × ScanEntry Id)) (idx : ResourceIndex Id)
    (hnd : NodupKeys scan)
    (hb : ResourceIndex.build root scan = some idx) :
    idx.resources.length = idx.path_to_resource.length ∧
    (∀ (p : PathBuf) (e : IndexEntry Id),
        lookupA idx.path_to_resource p = some e →
        p ∈ (lookupA idx.id_to_paths e.id).getD []) ∧
    (∀ (k : Id) (ps : List PathBuf), lookupA idx.id_to_paths k = some ps →
        ∀ p ∈ ps, ∃ e, lookupA idx.path_to_resource p = some e ∧ e.id = k) := by
  cases hthe : stripScan root scan with
  | none =>
    rw [ResourceIndex.build, hthe] at hb
    cases hb
  | some entries =>
    have hne : NodupKeys entries := stripScan_nodupKeys hnd hthe
    have hb' : some (⟨root,
        entries.foldl (fun m re => setInsertAt m re.2.id re.1) [],
        collectA entries⟩ : ResourceIndex Id) = some idx := by
      rw [← hb, ResourceIndex.build, hthe]
      rfl
    have hidx := Option.some.inj hb'
    subst hidx
    refine ⟨by simp [ResourceIndex.resources], ?_, ?_⟩
    · intro p e hlk
      have hmem : (p, e) ∈ entries := (lookupA_collectA hne).mp hlk
      exact (mem_foldl_setInsertAt entries [] e.id p).mpr
        (Or.inr ⟨e, hmem, rfl⟩)
    · intro k ps hlkk p hp
      have hmem : p ∈ (lookupA
          (entries.foldl (fun m re => setInsertAt m re.2.id re.1) []) k).getD [] := by
        rw [hlkk]
        exact hp
      rcases (mem_foldl_setInsertAt entries [] k p).mp hmem with hbase | ⟨e, hin, hid⟩
      · simp [lookupA] at hbase
      · exact ⟨e, (lookupA_collectA hne).mpr hin, hid⟩

/-- Witness for C4 at a concrete two-file scan with colliding ids. -/
theorem c4_build_invariants_witness :
    NodupKeys c4Scan ∧
    ResourceIndex.build ["a"] c4Scan = some c4St ∧
    c4St.resources.length = c4St.path_to_resource.length :=
  ⟨by decide, by decide,
    (c4_build_invariants ["a"] c4Scan c4St (by decide) (by decide)).1⟩

/-! ## Lemmas towards claims C3 (and the behaviour of `update_all`)

Because the scan is keyed by absolute paths while `path_to_resource` is
keyed by relative paths, the intersection `preserved_entries` is empty
whenever the index is well formed; the modified-check therefore never
compares timestamps, and the backwards-clock `unwrap` is unreachable. -/
theorem preservedEntriesFn_eq_nil [DecidableEq Id]
    {previous : List (PathBuf × IndexEntry Id)}
    {current : List (PathBuf × ScanEntry Id)}
    (hrel : ∀ pe ∈ previous, ∃ c, pe.1 = PathBuf.relative c)
    (habs : ∀ pe ∈ current, ∃ c, pe.1 = PathBuf.absolute c) :
    preservedEntriesFn previous current = [] := by
  unfold preservedEntriesFn
  rw [List.filterMap_eq_nil_iff]
  intro pe hin
  obtain ⟨c, hc⟩ := habs pe hin
  have : lookupA previous pe.1 = none := by
    rw [lookupA_eq_none]
    intro hmem
    obtain ⟨⟨p', e'⟩, hin', hkeq⟩ := List.mem_map.mp hmem
    obtain ⟨c', hc'⟩ := hrel (p', e') hin'
    simp only at hkeq
    rw [hkeq, hc] at hc'
    cases hc'
  rw [this]
  rfl

theorem updatedEntriesFn_preserved_nil [DecidableEq Id]
    (ptr : List (PathBuf × IndexEntry Id))
    (current : List (PathBuf × ScanEntry Id)) (md : PathBuf → Option Nat) :
    updatedEntriesFn ptr [] current md = some [] := by
  induction current with
  | nil => rfl
  | cons hd tl ih =>
    simp only [updatedEntriesFn, containsKey, lookupA, Option.isSome_none,
      Bool.false_eq_true, if_false]
    exact ih

theorem removeEntries_some [DecidableEq Id]
    (L : List (PathBuf × IndexEntry Id)) :
    ∀ (st : ResourceIndex Id) (acc : List Id),
      NodupKeys L →
      (∀ pe ∈ L, pe.1 ∈ (lookupA st.id_to_paths pe.2.id).getD []) →
      ∃ st' acc', removeEntries st acc L = some (st', acc')
        ∧ st'.root = st.root := by
  induction L with
  | nil => intro st acc _ _; exact ⟨st, acc, rfl, rfl⟩
  | cons hd rest ih =>
    intro st acc hnd h2
    obtain ⟨p, e⟩ := hd
    simp only [NodupKeys, keysOf, List.map_cons, List.nodup_cons] at hnd
    have hmem := h2 (p, e) (List.mem_cons_self _ _)
    cases hlk : lookupA st.id_to_paths e.id with
    | none =>
      rw [hlk] at hmem
      simp at hmem
    | some s =>
      rw [hlk] at hmem
      simp only [Option.getD_some] at hmem
      simp only [removeEntries, hlk]
      by_cases hemp : (s.filter (fun q => q ≠ p)).isEmpty
      · have hempty : s.filter (fun q => q ≠ p) = [] := List.isEmpty_iff.mp hemp
        have h2' : ∀ pe ∈ rest,
            pe.1 ∈ (lookupA (eraseA st.id_to_paths e.id) pe.2.id).getD [] := by
          intro pe hin
          by_cases hid : pe.2.id = e.id
          · exfalso
            have hpe := h2 pe (List.mem_cons_of_mem _ hin)
            rw [hid, hlk] at hpe
            simp only [Option.getD_some] at hpe
            have hne : pe.1 ≠ p := by
              intro hpp
              exact hnd.1
                (List.mem_map.mpr ⟨pe, hin, by rw [hpp]⟩)
            have : pe.1 ∈ s.filter (fun q => q ≠ p) :=
              List.mem_filter.mpr ⟨hpe, by simpa using hne⟩
            rw [hempty] at this
            cases this
          · rw [lookupA_eraseA, if_neg hid]
            exact h2 pe (List.mem_cons_of_mem _ hin)
        obtain ⟨st', acc', heq, hroot⟩ :=
          ih ⟨st.root, eraseA st.id_to_paths e.id,
              eraseA st.path_to_resource p⟩ (setInsert acc e.id) hnd.2 h2'
        rw [if_pos hemp]
        exact ⟨st', acc', heq, hroot⟩
      · have h2' : ∀ pe ∈ rest,
            pe.1 ∈ (lookupA (insertA st.id_to_paths e.id
              (s.filter (fun q => q ≠ p))) pe.2.id).getD [] := by
          intro pe hin
          by_cases hid : pe.2.id = e.id
          · rw [hid, lookupA_insertA, if_pos rfl]
            have hpe := h2 pe (List.mem_cons_of_mem _ hin)
            rw [hid, hlk] at hpe
            simp only [Option.getD_some] at hpe
            have hne : pe.1 ≠ p := by
              intro hpp
              exact hnd.1
                (List.mem_map.mpr ⟨pe, hin, by rw [hpp]⟩)
            exact List.mem_filter.mpr ⟨hpe, by simpa using hne⟩
          · rw [lookupA_insertA, if_neg hid]
            exact h2 pe (List.mem_cons_of_mem _ hin)
        obtain ⟨st', acc', heq, hroot⟩ :=
          ih ⟨st.root, insertA st.id_to_paths e.id
              (s.filter (fun q => q ≠ p)),
              eraseA st.path_to_resource p⟩ acc hnd.2 h2'
        rw [if_neg hemp]
        exact ⟨st', acc', heq, hroot⟩

theorem addEntries_some [DecidableEq Id]
    (L : List (PathBuf × ScanEntry Id)) :
    ∀ (st : ResourceIndex Id) (acc : List (Id × IndexedResource Id)),
      (∀ pe ∈ L, (stripRoot st.root pe.1).isSome) →
      ∃ st' acc', addEntries st acc L = some (st', acc')
        ∧ st'.root = st.root := by
  induction L with
  | nil => intro st acc _; exact ⟨st, acc, rfl, rfl⟩
  | cons hd rest ih =>
    intro st acc h
    obtain ⟨p, r⟩ := hd
    have hhd := h (p, r) (List.mem_cons_self _ _)
    cases hs : stripRoot st.root p with
    | none => rw [hs] at hhd; cases hhd
    | some rel =>
      simp only [addEntries, hs]
      obtain ⟨st', acc', heq, hroot⟩ :=
        ih ⟨st.root, setInsertAt st.id_to_paths r.id rel,
            insertA st.path_to_resource rel ⟨r.id, r.last_modified⟩⟩
          (insertA acc r.id ⟨r.id, rel, r.last_modified⟩)
          (fun pe hin => h pe (List.mem_cons_of_mem _ hin))
      exact ⟨st', acc', heq, hroot⟩

/-- The `do`-block of `update_all`, written out as explicit binds. -/
theorem update_all_eq [DecidableEq Id] (st : ResourceIndex Id)
    (scan : List (PathBuf × ScanEntry Id)) (md : PathBuf → Option Nat) :
    st.update_all scan md =
      (updatedEntriesFn st.path_to_resource
          (preservedEntriesFn st.path_to_resource scan) scan md).bind
        (fun updated =>
          (removeEntries st []
              (st.path_to_resource.filter
                (fun pe =>
                  !(containsKey (preservedEntriesFn st.path_to_resource scan)
                      pe.1)))).bind
            (fun sr =>
              (addEntries sr.1 []
                  ((updated ++ scan.filter
                      (fun pe =>
                        !(containsKey
                            (preservedEntriesFn st.path_to_resource scan)
                            pe.1))).filter
                    (fun pe => !(containsKey sr.1.path_to_resource pe.1)))).bind
                (fun sa => some (⟨sa.2, sr.2⟩, sa.1)))) := rfl

/-! ## Claim C3: backwards clocks during `update_all` -/
/-- C3: for a well-formed index and a scan containing a path that is both
indexed and present on disk with an on-disk mtime strictly earlier than
the recorded one, `update_all` classifies no path (in particular not that
one) as modified — `updated_entries` is empty — and returns normally: the
backwards-clock `duration_since(..).unwrap()` is never reached, because
the preserved-entry detection compares absolute scan keys against
relative stored keys and so never fires. -/
theorem c3_backwards_timestamp_not_modified [DecidableEq Id]
    (st : ResourceIndex Id) (scan : List (PathBuf × ScanEntry Id))
    (md : PathBuf → Option Nat)
    (hrel : ∀ pe ∈ st.path_to_resource, ∃ c, pe.1 = PathBuf.relative c)
    (habs : ∀ pe ∈ scan, ∃ c, pe.1 = PathBuf.absolute (st.root ++ c))
    (hnd : NodupKeys st.path_to_resource)
    (hfwd : ∀ pe ∈ st.path_to_resource,
        pe.1 ∈ (lookupA st.id_to_paths pe.2.id).getD [])
    (rp : List String) (e : IndexEntry Id) (tc : Nat)
    (hprev : lookupA st.path_to_resource (.relative rp) = some e)
    (hscan : PathBuf.absolute (st.root ++ rp) ∈ keysOf scan)
    (hmd : md (.absolute (st.root ++ rp)) = some tc)
    (hback : tc < e.last_modified) :
    updatedEntriesFn st.path_to_resource
        (preservedEntriesFn st.path_to_resource scan) scan md = some []
    ∧ ∃ upd st', st.update_all scan md = some (upd, st') := by
  have habs' : ∀ pe ∈ scan, ∃ c, pe.1 = PathBuf.absolute c :=
    fun pe h => (habs pe h).elim (fun c hc => ⟨st.root ++ c, hc⟩)
  have hpres : preservedEntriesFn st.path_to_resource scan = [] :=
    preservedEntriesFn_eq_nil hrel habs'
  have hupd : updatedEntriesFn st.path_to_resource
      (preservedEntriesFn st.path_to_resource scan) scan md = some [] := by
    rw [hpres]
    exact updatedEntriesFn_preserved_nil _ _ _
  refine ⟨hupd, ?_⟩
  have hrem_list : st.path_to_resource.filter
      (fun pe =>
        !(containsKey (preservedEntriesFn st.path_to_resource scan) pe.1))
      = st.path_to_resource := by
    rw [hpres]
    apply List.filter_eq_self.mpr
    intro a _
    simp [containsKey, lookupA]
  obtain ⟨st₁, rem, hremove, hroot1⟩ :=
    removeEntries_some st.path_to_resource st [] hnd hfwd
  obtain ⟨st₂, add, haddeq, _⟩ :=
    addEntries_some
      ((([] : List (PathBuf × ScanEntry Id)) ++ scan.filter
          (fun pe =>
            !(containsKey (preservedEntriesFn st.path_to_resource scan)
                pe.1))).filter
        (fun pe => !(containsKey st₁.path_to_resource pe.1)))
      st₁ []
      (by
        intro pe hin
        have hin₂ := (List.mem_filter.mp hin).1
        rw [List.nil_append] at hin₂
        have hins : pe ∈ scan := (List.mem_filter.mp hin₂).1
        obtain ⟨c, hc⟩ := habs pe hins
        rw [hroot1, hc, stripRoot_append]
        rfl)
  refine ⟨⟨add, rem⟩, st₂, ?_⟩
  rw [update_all_eq, hupd, Option.some_bind, hrem_list, hremove,
    Option.some_bind, haddeq, Option.some_bind]

/-- Witness for C3: the one-file index `c1St` (mtime 100) with the on-disk
metadata oracle reporting 50 — a clock that went backwards. -/
theorem c3_backwards_timestamp_witness :
    updatedEntriesFn c1St.path_to_resource
        (preservedEntriesFn c1St.path_to_resource c1Scan) c1Scan
        (fun _ => some 50) = some []
    ∧ ∃ upd st', c1St.update_all c1Scan (fun _ => some 50)
        = some (upd, st') :=
  c3_backwards_timestamp_not_modified c1St c1Scan (fun _ => some 50)
    (by
      intro pe hin
      have h := List.mem_singleton.mp hin
      subst h
      exact ⟨["file.txt"], rfl⟩)
    (by
      intro pe hin
      have h := List.mem_singleton.mp hin
      subst h
      exact ⟨["file.txt"], rfl⟩)
    (by decide) (by decide)
    ["file.txt"] ⟨7, 100⟩ 50
    (by decide) (by decide) rfl (by decide)

/-! ## Claim C2: the `.ark` filter -/
/-- C2 counterexample: an event carrying one path inside `<root>/.ark/`
and one outside is skipped by the filter (`any`), while the claim — skip
iff every path is under `.ark` — says it must not be skipped. -/
theorem c2_counterexample :
    ¬ ((skipsArkEvent (.absolute ["r", ".ark"])
          ⟨.modifyData,
            [.absolute ["r", ".ark", "index"], .absolute ["r", "file.txt"]],
            false⟩ = true)
        ↔ (∀ p ∈ ([.absolute ["r", ".ark", "index"],
              .absolute ["r", "file.txt"]] : List PathBuf),
            startsWithPath p (.absolute ["r", ".ark"]) = true)) := by
  decide

/-- C2 amended: the watch loop's `.ark` filter skips an event if and only
if at least one of the event's paths is under `<root>/.ark/`; an event
none of whose paths is under `.ark` is not skipped. -/
theorem c2_skip_iff_some_path_under_ark (ark : PathBuf) (ev : Event) :
    skipsArkEvent ark ev = true
      ↔ ∃ p ∈ ev.paths, startsWithPath p ark = true := by
  simp [skipsArkEvent, List.any_eq_true]

/-! ## Claim C6: loop termination when the channel closes -/
/-- C6 counterexample: with the inbound channel closed before any message
(the stream yields nothing), the loop does not return an error-free
`Ok(())` — it reaches the `unreachable!` panic. -/
theorem c6_counterexample :
    watchLoop (.absolute ["r", ".ark"]) (fun st _ => Except.ok st)
        ([] : List (EventMsg Nat)) ⟨["r"], [], []⟩
      = .panicked := rfl

/-- C6 amended: whatever messages the channel delivers before closing and
whatever `update_one` does, the loop never returns `Ok(())`: once the
stream is exhausted it panics at `unreachable!`, and the only returns are
error returns through `?`. -/
theorem c6_watch_loop_never_ok [DecidableEq Id] (ark : PathBuf)
    (uOne : ResourceIndex Id → PathBuf → Except Unit (ResourceIndex Id))
    (msgs : List (EventMsg Id)) (st : ResourceIndex Id) :
    watchLoop ark uOne msgs st = .panicked
      ∨ watchLoop ark uOne msgs st = .err := by
  induction msgs generalizing st with
  | nil => exact Or.inl rfl
  | cons m rest ih =>
    cases m with
    | errMsg => exact ih st
    | okMsg ev scan md =>
      simp only [watchLoop]
      split
      · exact ih _
      · split
        · exact ih _
        · split
          · split
            · exact Or.inl rfl
            · exact ih _
          · split
            · exact Or.inl rfl
            · split
              · exact Or.inr rfl
              · split
                · exact Or.inr rfl
                · exact ih _

/-- C7: `track_removal` of an indexed path whose file is still on disk
fails with `StillExists`, and `track_removal` of a path that is not in
the index fails with `NotIndexed`; in both failure cases the index is
returned unchanged. -/
theorem c7_track_removal_failures [DecidableEq Id] (st : ResourceIndex Id)
    (fsExists : PathBuf → Bool) (p : PathBuf) :
    (∀ e, lookupA st.path_to_resource p = some e → fsExists p = true →
        st.track_removal fsExists p = (.error .StillExists, st)) ∧
    (lookupA st.path_to_resource p = none →
        st.track_removal fsExists p = (.error .NotIndexed, st)) := by
  constructor
  · intro e hlk hex
    unfold ResourceIndex.track_removal
    rw [hlk, hex]
    rfl
  · intro hlk
    unfold ResourceIndex.track_removal
    rw [hlk]

/-- Witness for C7: on the one-file index, removing `file.txt` while it
still exists fails with `StillExists`, and removing the never-indexed
`new_file.txt` fails with `NotIndexed`; the index is unchanged both
times. -/
theorem c7_track_removal_failures_witness :
    c1St.track_removal (fun _ => true) (.relative ["file.txt"])
        = (.error .StillExists, c1St) ∧
    c1St.track_removal (fun _ => true) (.relative ["new_file.txt"])
        = (.error .NotIndexed, c1St) :=
  ⟨(c7_track_removal_failures c1St (fun _ => true)
      (.relative ["file.txt"])).1 ⟨7, 100⟩ (by decide) rfl,
   (c7_track_removal_failures c1St (fun _ => true)
      (.relative ["new_file.txt"])).2 (by decide)⟩

/-! ## Claim C9: when `Hash::from_str` fails -/

theorem parseOutcome_map_eq_parseErr {f : List Nat → List Nat}
    {x : ParseOutcome} : x.map f = .parseErr ↔ x = .parseErr := by
  cases x <;> simp [ParseOutcome.map]

theorem parseOutcome_map_eq_panic {f : List Nat → List Nat}
    {x : ParseOutcome} : x.map f = .panic ↔ x = .panic := by
  cases x <;> simp [ParseOutcome.map]

theorem byteLen_ascii :
    ∀ {s : List Char}, (∀ c ∈ s, c.utf8Size = 1) → byteLen s = s.length := by
  intro s h
  induction s with
  | nil => rfl
  | cons a t ih =>
    have ha := h a (List.mem_cons_self _ _)
    have ht := ih (fun c hc => h c (List.mem_cons_of_mem _ hc))
    simp only [byteLen, List.map_cons, List.sum_cons, List.length_cons] at ht ⊢
    omega

theorem utf8Size_of_hex {c : Char} (h : isHexDigitC c = true) :
    c.utf8Size = 1 := by
  have hnat : c.val.toNat ≤ 127 := by
    simp only [isHexDigitC, Bool.or_eq_true, Bool.and_eq_true,
      decide_eq_true_eq] at h
    have hb : ∀ d : Char, c ≤ d → d.val.toNat ≤ 127 → c.val.toNat ≤ 127 := by
      intro d hcd hd
      have h' : c.val ≤ d.val := hcd
      rw [UInt32.le_def, BitVec.le_def] at h'
      have h'' : c.val.toNat ≤ d.val.toNat := h'
      omega
    rcases h with (⟨_, h2⟩ | ⟨_, h2⟩) | ⟨_, h2⟩
    · exact hb _ h2 (by decide)
    · exact hb _ h2 (by decide)
    · exact hb _ h2 (by decide)
  simp only [Char.utf8Size]
  split
  · rfl
  · next hcond =>
    exfalso
    apply hcond
    rw [UInt32.le_def, BitVec.le_def]
    exact hnat

theorem mem_hexPairsOf :
    ∀ (s : List Char) (p : Char × Char), p ∈ hexPairsOf s →
      p.1 ∈ s ∧ p.2 ∈ s
  | [], p => by simp [hexPairsOf]
  | [a], p => by simp [hexPairsOf]
  | a :: b :: rest, p => by
    intro hp
    simp only [hexPairsOf] at hp
    rcases List.mem_cons.mp hp with heq | hp'
    · subst heq
      exact ⟨List.mem_cons_self _ _,
        List.mem_cons_of_mem _ (List.mem_cons_self _ _)⟩
    · have := mem_hexPairsOf rest p hp'
      exact ⟨List.mem_cons_of_mem _ (List.mem_cons_of_mem _ this.1),
        List.mem_cons_of_mem _ (List.mem_cons_of_mem _ this.2)⟩

theorem parseHexPairs_ascii :
    ∀ (s : List Char), (∀ c ∈ s, c.utf8Size = 1) → byteLen s % 2 = 0 →
      ((parseHexPairs s = .parseErr
          ↔ ∃ p ∈ hexPairsOf s, fromStrRadix16Pair p.1 p.2 = none)
        ∧ ¬ parseHexPairs s = .panic)
  | [] => by
    intro _ _
    simp [parseHexPairs, hexPairsOf]
  | [a] => by
    intro h1 h2
    exfalso
    have ha := h1 a (List.mem_cons_self _ _)
    have hb : byteLen [a] = 1 := by
      simp [byteLen, ha]
    rw [hb] at h2
    simp at h2
  | a :: b :: rest => by
    intro h1 h2
    have ha := h1 a (List.mem_cons_self _ _)
    have hb := h1 b (List.mem_cons_of_mem _ (List.mem_cons_self _ _))
    have h1' : ∀ c ∈ rest, c.utf8Size = 1 :=
      fun c hc => h1 c (List.mem_cons_of_mem _ (List.mem_cons_of_mem _ hc))
    have h2' : byteLen rest % 2 = 0 := by
      have hsum : byteLen (a :: b :: rest) = 2 + byteLen rest := by
        simp only [byteLen, List.map_cons, List.sum_cons, ha, hb]
        omega
      rw [hsum] at h2
      omega
    have ih := parseHexPairs_ascii rest h1' h2'
    cases hp : fromStrRadix16Pair a b with
    | none =>
      have hstep : parseHexPairs (a :: b :: rest) = .parseErr := by
        simp [parseHexPairs, ha, hb, hp]
      rw [hstep]
      refine ⟨?_, by simp⟩
      constructor
      · intro _
        refine ⟨(a, b), ?_, hp⟩
        simp only [hexPairsOf]
        exact List.mem_cons_self _ _
      · intro _
        rfl
    | some v =>
      have hstep : parseHexPairs (a :: b :: rest)
          = (parseHexPairs rest).map (fun r => v :: r) := by
        simp [parseHexPairs, ha, hb, hp]
      rw [hstep]
      constructor
      · rw [parseOutcome_map_eq_parseErr, ih.1]
        constructor
        · rintro ⟨q, hq, hqn⟩
          refine ⟨q, ?_, hqn⟩
          simp only [hexPairsOf]
          exact List.mem_cons_of_mem _ hq
        · rintro ⟨q, hq, hqn⟩
          simp only [hexPairsOf] at hq
          rcases List.mem_cons.mp hq with heq | hq'
          · subst heq
            rw [hp] at hqn
            cases hqn
          · exact ⟨q, hq', hqn⟩
      · rw [parseOutcome_map_eq_panic]
        exact ih.2

/-- C9 counterexample, at two inputs. The string `"+f"` has even (byte)
length and contains the non-hex character `'+'`, yet `from_str` succeeds,
because `u8::from_str_radix` accepts a leading plus sign. The string
`"aéa"` has even byte length (4) and contains the non-hex `'é'`, but
instead of returning the Parse error the program panics: the second
two-byte slice boundary falls inside the two-byte character `'é'`. Both
contradict "fails with Parse iff odd length or a non-hex character". -/
theorem c9_counterexample :
    (¬ ((hashFromStr ['+', 'f'] = .parseErr)
        ↔ (byteLen ['+', 'f'] % 2 = 1
            ∨ ∃ c ∈ (['+', 'f'] : List Char), isHexDigitC c = false)))
    ∧ hashFromStr ['a', 'é', 'a'] = .panic
    ∧ byteLen ['a', 'é', 'a'] % 2 = 0
    ∧ (∃ c ∈ (['a', 'é', 'a'] : List Char), isHexDigitC c = false) := by
  refine ⟨by decide, by decide, by decide, by decide⟩

/-- C9 amended: an odd UTF-8 byte length always gives the Parse error; on
strings of one-byte characters `from_str` fails with Parse exactly when
the byte length is odd or some aligned two-character chunk is rejected by
`u8::from_str_radix` (i.e. it is neither two hex digits nor a `'+'`
followed by a hex digit), and never panics; and every string of hex
digits with even length parses successfully. (On strings with multi-byte
characters the function can instead panic, as the counterexample
shows.) -/
theorem c9_from_str_parse_amended (s : List Char) :
    (byteLen s % 2 = 1 → hashFromStr s = .parseErr)
    ∧ ((∀ c ∈ s, c.utf8Size = 1) →
        ((hashFromStr s = .parseErr
            ↔ (byteLen s % 2 = 1
                ∨ ∃ p ∈ hexPairsOf s, fromStrRadix16Pair p.1 p.2 = none))
          ∧ ¬ hashFromStr s = .panic))
    ∧ ((byteLen s % 2 = 0 ∧ (∀ c ∈ s, isHexDigitC c = true)) →
        ∃ v, hashFromStr s = .ok v) := by
  refine ⟨?_, ?_, ?_⟩
  · intro hodd
    rw [hashFromStr, if_pos (by omega)]
  · intro hascii
    by_cases hev : byteLen s % 2 = 0
    · obtain ⟨hiff, hnp⟩ := parseHexPairs_ascii s hascii hev
      rw [hashFromStr, if_neg (by omega)]
      refine ⟨?_, hnp⟩
      rw [hiff]
      constructor
      · exact Or.inr
      · rintro (h1 | h2)
        · omega
        · exact h2
    · have hodd : byteLen s % 2 = 1 := by omega
      rw [hashFromStr, if_pos (by omega)]
      exact ⟨⟨fun _ => Or.inl hodd, fun _ => rfl⟩, by simp⟩
  · rintro ⟨hev, hhex⟩
    have hascii : ∀ c ∈ s, c.utf8Size = 1 :=
      fun c hc => utf8Size_of_hex (hhex c hc)
    obtain ⟨hiff, hnp⟩ := parseHexPairs_ascii s hascii hev
    have hne : ¬ parseHexPairs s = .parseErr := by
      rw [hiff]
      rintro ⟨p, hp, hpn⟩
      obtain ⟨hm1, hm2⟩ := mem_hexPairsOf s p hp
      rw [fromStrRadix16Pair, if_pos ⟨hhex _ hm1, hhex _ hm2⟩] at hpn
      cases hpn
    rw [hashFromStr, if_neg (by omega)]
    cases hv : parseHexPairs s with
    | ok v => exact ⟨v, rfl⟩
    | parseErr => exact absurd hv hne
    | panic => exact absurd hv hnp

/-- Witness for C9 applied at the all-hex string `"0a"`. -/
theorem c9_from_str_parse_amended_witness :
    ∃ v, hashFromStr ['0', 'a'] = .ok v :=
  (c9_from_str_parse_amended ['0', 'a']).2.2 ⟨by decide, by decide⟩

theorem chunksNl_foldl_append :
    ∀ (l : List Nat) (acc : List Nat),
      (chunksNl l).foldl (fun a c => a ++ c) acc = acc ++ l
  | [], acc => by simp [chunksNl]
  | b :: bs, acc => by
    by_cases hb : b = 10
    · subst hb
      rw [show chunksNl (10 :: bs) = [10] :: chunksNl bs by simp [chunksNl]]
      simp only [List.foldl_cons]
      rw [chunksNl_foldl_append bs (acc ++ [10])]
      simp
    · simp only [chunksNl, if_neg hb]
      cases hcs : chunksNl bs with
      | nil =>
        have hbs : bs = [] := by
          have := chunksNl_foldl_append bs []
          rw [hcs] at this
          simpa using this.symm
        subst hbs
        simp
      | cons c cs =>
        simp only [List.foldl_cons]
        have := chunksNl_foldl_append bs (acc ++ [b])
        rw [hcs] at this
        simp only [List.foldl_cons] at this
        calc List.foldl (fun a c => a ++ c) (acc ++ (b :: c)) cs
            = List.foldl (fun a c => a ++ c) ((acc ++ [b]) ++ c) cs := by
              simp
          _ = (acc ++ [b]) ++ bs := this
          _ = acc ++ b :: bs := by simp

/-- C10: hashing a file by feeding its newline-delimited chunks to the
incremental hasher produces the same digest as hashing the file's full
byte contents at once: `from_path` agrees with `from_bytes` on the file's
bytes, for every digest function and every file. -/
theorem c10_from_path_eq_from_bytes {Hv : Type u} (H : List Nat → Hv)
    (fileBytes : List Nat) :
    Blake3.from_path H fileBytes = Blake3.from_bytes H fileBytes := by
  unfold Blake3.from_path Blake3.from_bytes
  rw [chunksNl_foldl_append]
  rfl

mutual
theorem discoverEntry_sound {Id : Type u} (hashFn : List Nat → Id)
    (t : FsTree) (hwf : wfTree t = true) :
    ∀ e ∈ discoverEntry hashFn t,
      ∃ rest content,
        e.1 = FsTree.name t :: rest ∧
        (∀ c ∈ e.1, should_index c = true) ∧
        findInTree t rest = some (content, e.2.1) ∧
        content.length ≠ 0 ∧ e.2.2 = hashFn content := by
  intro e he
  cases t with
  | file n content mt =>
    simp only [discoverEntry] at he
    by_cases hc : should_index n = true ∧ content.length ≠ 0
    · rw [if_pos hc] at he
      have he' : e = ([n], mt, hashFn content) := List.mem_singleton.mp he
      subst he'
      refine ⟨[], content, rfl, ?_, rfl, hc.2, rfl⟩
      intro c hcmem
      have : c = n := List.mem_singleton.mp hcmem
      subst this
      exact hc.1
    · rw [if_neg hc] at he
      cases he
  | dir n children =>
    simp only [discoverEntry] at he
    by_cases hn : should_index n = true
    · rw [if_pos hn] at he
      obtain ⟨e', he', heq⟩ := List.mem_map.mp he
      simp only [wfTree, Bool.and_eq_true, decide_eq_true_eq] at hwf
      obtain ⟨c, rest', content, h1, hcm, h2, h3, h4, h5⟩ :=
        discoverChildren_sound hashFn children hwf.2 hwf.1 e' he'
      subst heq
      refine ⟨c :: rest', content, by simp [FsTree.name, h1], ?_, ?_, h4, h5⟩
      · intro x hx
        rcases List.mem_cons.mp hx with hx1 | hx2
        · subst hx1; exact hn
        · exact h2 x (h1 ▸ hx2)
      · simpa [findInTree] using h3
    · rw [if_neg hn] at he
      cases he

theorem discoverChildren_sound {Id : Type u} (hashFn : List Nat → Id)
    (ts : List FsTree) (hwf : wfChildren ts = true)
    (hnd : (ts.map FsTree.name).Nodup) :
    ∀ e ∈ discoverChildren hashFn ts,
      ∃ c rest content,
        e.1 = c :: rest ∧ c ∈ ts.map FsTree.name ∧
        (∀ x ∈ e.1, should_index x = true) ∧
        findInChildren ts c rest = some (content, e.2.1) ∧
        content.length ≠ 0 ∧ e.2.2 = hashFn content := by
  intro e he
  cases ts with
  | nil => cases he
  | cons t ts' =>
    simp only [wfChildren, Bool.and_eq_true] at hwf
    simp only [List.map_cons, List.nodup_cons] at hnd
    rcases List.mem_append.mp he with h1 | h2
    · obtain ⟨rest, content, he1, he2, he3, he4, he5⟩ :=
        discoverEntry_sound hashFn t hwf.1 e h1
      refine ⟨FsTree.name t, rest, content, he1,
        List.mem_cons_self _ _, he2, ?_, he4, he5⟩
      simp only [findInChildren, if_pos rfl]
      exact he3
    · obtain ⟨c, rest, content, he1, hcm, he2, he3, he4, he5⟩ :=
        discoverChildren_sound hashFn ts' hwf.2 hnd.2 e h2
      have hne : FsTree.name t ≠ c := by
        intro hcc
        exact hnd.1 (hcc ▸ hcm)
      refine ⟨c, rest, content, he1, List.mem_cons_of_mem _ hcm, he2, ?_,
        he4, he5⟩
      simp only [findInChildren, if_neg hne]
      exact he3
end

theorem mem_foldl_insertA_sub [DecidableEq κ] :
    ∀ (l m : List (κ × ν)) (kv : κ × ν),
      kv ∈ l.foldl (fun acc x => insertA acc x.1 x.2) m → kv ∈ m ∨ kv ∈ l := by
  intro l
  induction l with
  | nil => intro m kv h; exact Or.inl h
  | cons x xs ih =>
    intro m kv h
    rcases ih (insertA m x.1 x.2) kv h with h1 | h2
    · rcases List.mem_cons.mp h1 with heq | hmem
      · right
        rw [heq]
        exact List.mem_cons_self _ _
      · exact Or.inl (List.mem_of_mem_filter hmem)
    · exact Or.inr (List.mem_cons_of_mem _ h2)

theorem mem_collectA [DecidableEq κ] {l : List (κ × ν)} {kv : κ × ν}
    (h : kv ∈ collectA l) : kv ∈ l := by
  rcases mem_foldl_insertA_sub l [] kv h with h1 | h2
  · cases h1
  · exact h2

/-! ## Claim C8: no empty and no hidden files in a built index -/
/-- C8: for every well-formed file tree, an index built over its scan only
binds non-empty relative paths all of whose components survive
`should_index` (so neither the basename nor any ancestor directory starts
with a dot), and each such path leads in the tree to an existing file
with non-empty contents; moreover building over a root holding only
`.hidden_file.txt` yields an index of length 0. -/
theorem c8_no_empty_no_hidden {Id : Type u} [DecidableEq Id]
    (hashFn : List Nat → Id) (root : List String) (tree : FsTree)
    (idx : ResourceIndex Id) (hwf : wfTree tree = true)
    (hb : ResourceIndex.build root (scanOfTree hashFn root tree) = some idx) :
    (∀ pe ∈ idx.path_to_resource,
        ∃ comps content mtime,
          pe.1 = PathBuf.relative comps ∧ comps ≠ [] ∧
          (∀ c ∈ comps, should_index c = true) ∧
          findRel tree comps = some (content, mtime) ∧
          content.length ≠ 0)
    ∧ ∃ idx0 : ResourceIndex Id,
        ResourceIndex.build root (scanOfTree hashFn root
            (.dir "root" [.file ".hidden_file.txt" [1] 1])) = some idx0
          ∧ idx0.len = 0 := by
  constructor
  · intro pe hpe
    cases hthe : stripScan root (scanOfTree hashFn root tree) with
    | none =>
      rw [ResourceIndex.build, hthe] at hb
      cases hb
    | some entries =>
      have hb' : some (⟨root,
          entries.foldl (fun m re => setInsertAt m re.2.id re.1) [],
          collectA entries⟩ : ResourceIndex Id) = some idx := by
        rw [← hb, ResourceIndex.build, hthe]
        rfl
      have hidx := Option.some.inj hb'
      subst hidx
      have hpe' : pe ∈ entries := mem_collectA hpe
      obtain ⟨p, e⟩ := pe
      obtain ⟨ap, se, hmem, hstrip, hee⟩ := (stripScan_mem hthe).mp hpe'
      obtain ⟨d, hd, hdd⟩ := List.mem_map.mp hmem
      have hap : ap = .absolute (root ++ d.1) := by
        have := congrArg Prod.fst hdd
        simpa using this.symm
      rw [hap, stripRoot_append] at hstrip
      have hp : p = .relative d.1 := (Option.some.inj hstrip).symm
      cases tree with
      | file n content mt => cases hd
      | dir n children =>
        simp only [wfTree, Bool.and_eq_true, decide_eq_true_eq] at hwf
        obtain ⟨c, rest, content, h1, _, h2, h3, h4, _⟩ :=
          discoverChildren_sound hashFn children hwf.2 hwf.1 d hd
        refine ⟨d.1, content, d.2.1, hp, by simp [h1], h2, ?_, h4⟩
        rw [h1, findRel]
        exact h3
  · refine ⟨⟨root, [], []⟩, ?_, rfl⟩
    have hscan : scanOfTree hashFn root
        (.dir "root" [.file ".hidden_file.txt" [1] 1])
        = [] := rfl
    rw [hscan]
    rfl

/-- Witness for C8: a concrete one-file tree, with the hidden-only root
evaluated through the theorem. -/
theorem c8_no_empty_no_hidden_witness :
    wfTree c8Tree = true ∧
    ResourceIndex.build ["a"] (scanOfTree (fun l => l.length) ["a"] c8Tree)
      = some c8St ∧
    ∃ idx0 : ResourceIndex Nat,
      ResourceIndex.build ["a"] (scanOfTree (fun l => l.length) ["a"]
          (.dir "root" [.file ".hidden_file.txt" [1] 1])) = some idx0
        ∧ idx0.len = 0 :=
  ⟨rfl, rfl,
    (c8_no_empty_no_hidden (fun l => l.length) ["a"] c8Tree c8St rfl rfl).2⟩
